import Mathlib

/-!
Verification of the BlackRoad SHA-Infinity hashing core.

The development embeds the two hashing modules (`sha-infinity` and
`sha256.js`) shallowly.  The base digest primitive is, per the
specification, an external dependency with a fixed contract
(deterministic digest of a string, rendered as a string); every
definition is therefore parameterised over an abstract
`sha256 : String → String`.  Concrete instantiations used by witnesses
pick an explicit injective, executable stand-in.
-/

namespace BlackRoad

/-- Structured values accepted by the canonical serializer
(`stableStringify` of `sha256.js`): null, booleans, numbers, strings,
ordered sequences and string-keyed mappings, recursively.  Mappings
carry their fields in insertion order, as a JavaScript object does. -/
inductive JSValue where
  | null : JSValue
  | bool : Bool → JSValue
  | num : Int → JSValue
  | str : String → JSValue
  | arr : List JSValue → JSValue
  | obj : List (String × JSValue) → JSValue

/-- Hexadecimal digit character, lowercase, as `toString(16)` renders it. -/
def hexDigit (n : Nat) : Char :=
  if n < 10 then Char.ofNat (48 + n) else Char.ofNat (87 + n)

/-- Four lowercase hexadecimal digits, as in a JSON `\u00XX` escape. -/
def hex4 (n : Nat) : String :=
  String.mk [hexDigit (n / 4096 % 16), hexDigit (n / 256 % 16), hexDigit (n / 16 % 16), hexDigit (n % 16)]

/-- One character of `JSON.stringify` string quoting. -/
def escapeChar (c : Char) : String :=
  if c = '"' then "\\\""
  else if c = '\\' then "\\\\"
  else if c = '\x08' then "\\b"
  else if c = '\t' then "\\t"
  else if c = '\n' then "\\n"
  else if c = '\x0c' then "\\f"
  else if c = '\r' then "\\r"
  else if c.toNat < 32 then "\\u" ++ hex4 c.toNat
  else String.mk [c]

/-- The `JSON.stringify` encoding of a string scalar. -/
def jsonQuote (s : String) : String :=
  "\"" ++ String.join (s.data.map escapeChar) ++ "\""

/-- Lexicographic comparison of character sequences, the order
JavaScript's default `Array.prototype.sort` applies to string keys. -/
def charListLe : List Char → List Char → Bool
  | [], _ => true
  | _ :: _, [] => false
  | a :: as, b :: bs =>
    if a.toNat < b.toNat then true
    else if b.toNat < a.toNat then false
    else charListLe as bs

theorem charListLe_total : ∀ a b, charListLe a b = true ∨ charListLe b a = true
  | [], _ => Or.inl rfl
  | _ :: _, [] => Or.inr rfl
  | a :: as, b :: bs => by
    simp only [charListLe]
    rcases Nat.lt_trichotomy a.toNat b.toNat with h | h | h
    · left
      simp [h]
    · have h1 : ¬ a.toNat < b.toNat := by omega
      have h2 : ¬ b.toNat < a.toNat := by omega
      simpa [h1, h2] using charListLe_total as bs
    · right
      simp [h]

theorem charListLe_trans : ∀ {a b c}, charListLe a b = true → charListLe b c = true →
    charListLe a c = true
  | [], _, _, _, _ => rfl
  | _ :: _, [], _, hab, _ => by simp [charListLe] at hab
  | _ :: _, _ :: _, [], _, hbc => by simp [charListLe] at hbc
  | a :: as, b :: bs, c :: cs, hab, hbc => by
    simp only [charListLe] at hab hbc ⊢
    split_ifs at hab hbc ⊢ <;>
      first
        | rfl
        | (exfalso; omega)
        | exact Bool.noConfusion hab
        | exact Bool.noConfusion hbc
        | exact charListLe_trans hab hbc

theorem charListLe_antisymm : ∀ {a b}, charListLe a b = true → charListLe b a = true → a = b
  | [], [], _, _ => rfl
  | [], _ :: _, _, hba => by simp [charListLe] at hba
  | _ :: _, [], hab, _ => by simp [charListLe] at hab
  | a :: as, b :: bs, hab, hba => by
    simp only [charListLe] at hab hba
    by_cases h1 : a.toNat < b.toNat <;> by_cases h2 : b.toNat < a.toNat <;>
      simp [h1, h2] at hab hba
    · omega
    · have hn : a.toNat = b.toNat := by omega
      have ha : a = b := Char.eq_of_val_eq (UInt32.ext hn)
      rw [ha, charListLe_antisymm hab hba]

/-- Key order used by the canonical serializer: `Object.keys(obj).sort()`
compares keys lexicographically by code unit. -/
def keyRel (a b : String × String) : Prop := charListLe a.1.data b.1.data = true

instance : DecidableRel keyRel := fun a b =>
  inferInstanceAs (Decidable (charListLe a.1.data b.1.data = true))

instance : IsTotal (String × String) keyRel := ⟨fun a b => charListLe_total a.1.data b.1.data⟩

instance : IsTrans (String × String) keyRel := ⟨fun _ _ _ h h' => charListLe_trans h h'⟩

/-- Sort rendered fields by key, mirroring `Object.keys(obj).sort()`. -/
def sortByKey (l : List (String × String)) : List (String × String) :=
  List.insertionSort keyRel l

mutual

/-- Mirror of `stableStringify` in `sha256.js`: scalars use the JSON
textual encoding, sequences keep element order, mappings render their
fields and emit them in lexicographic key order.  (The source sorts the
keys first and then renders each value; since the comparison looks only
at keys, rendering the values before sorting produces the same text.) -/
def stableStringify : JSValue → String
  | .null => "null"
  | .bool b => cond b "true" "false"
  | .num n => n.repr
  | .str s => jsonQuote s
  | .arr xs => "[" ++ String.intercalate "," (stringifyAll xs) ++ "]"
  | .obj fields => "\x7b" ++ String.intercalate ","
      ((sortByKey (stringifyFields fields)).map (fun p => jsonQuote p.1 ++ ":" ++ p.2)) ++ "\x7d"
termination_by structural v => v

/-- Canonical serialization of each element of a sequence, in order. -/
def stringifyAll : List JSValue → List String
  | [] => []
  | v :: vs => stableStringify v :: stringifyAll vs
termination_by structural vs => vs

/-- Canonical serialization of each field value, keys kept. -/
def stringifyFields : List (String × JSValue) → List (String × String)
  | [] => []
  | (k, v) :: fs => (k, stableStringify v) :: stringifyFields fs
termination_by structural fs => fs

end

/-! Chained hash engine (`shaInfinity`). -/

/-- DEFAULT_CONFIG.defaultDepth. -/
def defaultDepth : Nat := 7

/-- DEFAULT_CONFIG.maxDepth. -/
def maxDepth : Nat := 256

/-- DEFAULT_CONFIG.minDepth. -/
def minDepth : Nat := 1

/-- DEFAULT_CONFIG.salt. -/
def defaultSalt : String := "blackroad-infinity"

/-- Options destructured by `shaInfinity`:
`useSalt`, `salt` and `includeDepthInHash`. -/
structure HashOptions where
  useSalt : Bool
  salt : String
  includeDepthInHash : Bool
deriving DecidableEq

/-- Option values when a caller passes `{}` (all defaults). -/
def defaultOptions : HashOptions := ⟨true, defaultSalt, true⟩

/-- Option values when a caller passes `{ includeDepthInHash: false }`. -/
def noDepthOptions : HashOptions := ⟨true, defaultSalt, false⟩

/-- Mirror of the loop `for (let i = 1; i < depth; i++) currentHash =
sha256(currentHash)`: `n` further digest applications, each step's hex
output fed verbatim into the next step. -/
def iterateHash (sha256 : String → String) : Nat → String → String
  | 0, cur => cur
  | n + 1, cur => iterateHash sha256 n (sha256 cur)

/-- Digest pipeline of `shaInfinity` once the depth is validated: seed
(salted or not), `depth - 1` further applications, optional final
depth-binding digest over `currentHash + ':depth:' + depth`. -/
def shaInfCore (sha256 : String → String) (data : String) (depth : Nat)
    (opts : HashOptions) : String :=
  let seed := if opts.useSalt then sha256 (opts.salt ++ ":" ++ data) else sha256 data
  let chained := iterateHash sha256 (depth - 1) seed
  if opts.includeDepthInHash then sha256 (chained ++ ":depth:" ++ Nat.repr depth) else chained

/-- Mirror of `shaInfinity`: validate the depth against
`[minDepth, maxDepth]` (throwing is modelled as `Except.error` with the
source's message), then run the digest pipeline. -/
def shaInfinity (sha256 : String → String) (data : String) (depth : Nat)
    (opts : HashOptions) : Except String String :=
  if depth < minDepth then .error "Depth must be at least 1"
  else if maxDepth < depth then .error "Depth cannot exceed 256"
  else .ok (shaInfCore sha256 data depth opts)

/-- Mirror of `shaInfinityAsync`: one combined bounds check with its own
message, then the same pipeline (in Node the async digest falls back to
the synchronous one, so both paths share the abstract primitive; the
promise wrapper carries no data). -/
def shaInfinityAsync (sha256 : String → String) (data : String) (depth : Nat)
    (opts : HashOptions) : Except String String :=
  if depth < minDepth ∨ maxDepth < depth then .error "Depth must be between 1 and 256"
  else .ok (shaInfCore sha256 data depth opts)

/-! State integrity service. -/

/-- Record returned by `createStateIntegrity`. -/
structure IntegrityRecord where
  sha256 : String
  sha_infinity : String
  chain_depth : Nat
  timestamp : Nat
  version : String
  algorithm : String
deriving DecidableEq

/-- Result returned by `verifyStateIntegrity`. -/
structure VerificationResult where
  valid : Bool
  sha256_valid : Bool
  sha_infinity_valid : Bool
  checked_at : Nat
  original_timestamp : Nat
deriving DecidableEq

/-- Mirror of `createStateIntegrity`.  `Date.now()` is an ambient input,
passed here as the explicit argument `timestamp`. -/
def createStateIntegrity (sha256 : String → String) (state : JSValue) (depth : Nat)
    (timestamp : Nat) : Except String IntegrityRecord :=
  let stateJson := stableStringify state
  match shaInfinity sha256 stateJson depth defaultOptions with
  | .error e => .error e
  | .ok inf => .ok ⟨sha256 stateJson, inf, depth, timestamp, "1.0.0", "sha-infinity-v1"⟩

/-- Mirror of `verifyStateIntegrity`: recompute both digests from the
canonical serialization of `state`, using `integrity.chain_depth`, and
compare with strict equality.  `Date.now()` at check time is the
explicit argument `now`. -/
def verifyStateIntegrity (sha256 : String → String) (state : JSValue)
    (integrity : IntegrityRecord) (now : Nat) : Except String VerificationResult :=
  let stateJson := stableStringify state
  let sha256Valid := decide (sha256 stateJson = integrity.sha256)
  match shaInfinity sha256 stateJson integrity.chain_depth defaultOptions with
  | .error e => .error e
  | .ok inf =>
    let infinityValid := decide (inf = integrity.sha_infinity)
    .ok ⟨sha256Valid && infinityValid, sha256Valid, infinityValid, now, integrity.timestamp⟩

/-! Proof-of-work search. -/

/-- Result of `proofOfWork`. -/
structure ProofOfWorkResult where
  hash : String
  nonce : Nat
  attempts : Nat
  verified : Bool
deriving DecidableEq

/-- The fixed attempt budget `10000000` of the `proofOfWork` loop. -/
def powBudget : Nat := 10000000

/-- JavaScript's `String.prototype.startsWith`: code-unit prefix test. -/
def jsStartsWith (s pat : String) : Bool := pat.data.isPrefixOf s.data

/-- The do-while loop of `proofOfWork`: hash `data + ':' + nonce` with
`{ includeDepthInHash: false }`, stop once the digest starts with the
zero run or the incremented nonce reaches the budget.  The returned
fields are the source's `hash`, `nonce - 1`, `attempts = nonce` and
`verified` (the final loop variable `nonce` is `nonce + 1` here). -/
def powGo (sha256 : String → String) (data zeros : String) (depth : Nat)
    (nonce : Nat) : Except String ProofOfWorkResult :=
  match shaInfinity sha256 (data ++ ":" ++ Nat.repr nonce) depth noDepthOptions with
  | .error e => .error e
  | .ok h =>
    if jsStartsWith h zeros = false ∧ nonce + 1 < powBudget then
      powGo sha256 data zeros depth (nonce + 1)
    else
      .ok ⟨h, nonce, nonce + 1, jsStartsWith h zeros⟩
termination_by powBudget - nonce
decreasing_by omega

/-- Mirror of `proofOfWork`: `'0'.repeat(difficulty)` prefix, nonce
search from 0. -/
def proofOfWork (sha256 : String → String) (data : String) (difficulty : Nat)
    (depth : Nat) : Except String ProofOfWorkResult :=
  powGo sha256 data (String.mk (List.replicate difficulty '0')) depth 0

/-- Number of leading `'0'` characters of a digest string. -/
def leadingZeros (s : String) : Nat := (s.data.takeWhile (fun c => c == '0')).length

/-! Merkle aggregator. -/

/-- One pairing level of `infinityMerkleRoot`: combine consecutive
elements left to right; `hashes[i + 1] || left` duplicates the left
element when the right one is missing (odd count) or falsy (the empty
string).  Each pair is combined with `{ includeDepthInHash: false }`. -/
def merklePair (sha256 : String → String) (depth : Nat) : List String → List String
  | [] => []
  | [left] => [shaInfCore sha256 (left ++ left) depth noDepthOptions]
  | left :: r :: rest =>
    let right := if r = "" then left else r
    shaInfCore sha256 (left ++ right) depth noDepthOptions :: merklePair sha256 depth rest

theorem merklePair_length (sha256 : String → String) (depth : Nat) :
    ∀ l : List String, (merklePair sha256 depth l).length = (l.length + 1) / 2
  | [] => rfl
  | [_] => by simp [merklePair]
  | _ :: _ :: rest => by
    simp only [merklePair, List.length_cons, merklePair_length sha256 depth rest]
    omega

/-- Recursion of `infinityMerkleRoot` below the (hoisted) depth check:
empty input maps to the sentinel digest of `"empty"` under default
options, a single element is returned unchanged, otherwise one pairing
level is built and folded recursively. -/
def merkleGo (sha256 : String → String) (depth : Nat) (hashes : List String) : String :=
  match hashes with
  | [] => shaInfCore sha256 "empty" depth defaultOptions
  | [h] => h
  | a :: b :: rest => merkleGo sha256 depth (merklePair sha256 depth (a :: b :: rest))
termination_by hashes.length
decreasing_by
  simp [merklePair_length]
  omega

/-- Mirror of `infinityMerkleRoot`.  In the source an invalid depth
makes the first `shaInfinity` call throw; for two or more elements that
first call happens before anything is returned, so the validation is
hoisted here in front of the (then error-free) pure recursion, with the
messages that call would raise.  A single-element input performs no
hashing and hence never fails, exactly as in the source. -/
def infinityMerkleRoot (sha256 : String → String) (hashes : List String)
    (depth : Nat) : Except String String :=
  match hashes with
  | [] => shaInfinity sha256 "empty" depth defaultOptions
  | [h] => .ok h
  | _ =>
    if depth < minDepth then .error "Depth must be at least 1"
    else if maxDepth < depth then .error "Depth cannot exceed 256"
    else .ok (merkleGo sha256 depth hashes)

/-- Decidable equality for `Except` results, so concrete runs of the
embedded functions can be checked by evaluation. -/
instance exceptDecEq {ε α : Type} [DecidableEq ε] [DecidableEq α] :
    DecidableEq (Except ε α) := fun a b =>
  match a, b with
  | .error x, .error y => if h : x = y then .isTrue (by rw [h]) else .isFalse (by simp [h])
  | .error _, .ok _ => .isFalse (by simp)
  | .ok _, .error _ => .isFalse (by simp)
  | .ok x, .ok y => if h : x = y then .isTrue (by rw [h]) else .isFalse (by simp [h])

/-! Reference definitions and witness material. -/

/-- Reference reading of the specification's chained-hash contract:
`d` sequential applications of the base digest, the first applied to
the data, each later one applied to the previous application's output
string. -/
def seqDigest (sha256 : String → String) : Nat → String → String
  | 0, x => x
  | n + 1, x => sha256 (seqDigest sha256 n x)

/-- Concrete injective, executable stand-in for the abstract digest
primitive, used by witnesses: prepend one character. -/
def tagHash (s : String) : String := String.mk ('h' :: s.data)

theorem tagHash_injective : Function.Injective tagHash := by
  intro a b h
  have hd : 'h' :: a.data = 'h' :: b.data := congrArg String.data h
  injection hd with h1 h2
  exact String.ext h2

theorem tagHash_ne_empty (s : String) : tagHash s ≠ "" := by
  intro h
  have hd : 'h' :: s.data = ([] : List Char) := congrArg String.data h
  simp at hd

/-! Helper lemmas. -/

theorem iterateHash_eq_seqDigest (sha256 : String → String) (n : Nat) (x : String) :
    iterateHash sha256 n x = seqDigest sha256 n x := by
  induction n generalizing x with
  | zero => rfl
  | succ m ih =>
    have hshift : ∀ k y, seqDigest sha256 k (sha256 y) = sha256 (seqDigest sha256 k y) := by
      intro k
      induction k with
      | zero => intro y; rfl
      | succ j ihj =>
        intro y
        simp only [seqDigest, ihj]
    calc iterateHash sha256 (m + 1) x
        = iterateHash sha256 m (sha256 x) := rfl
      _ = seqDigest sha256 m (sha256 x) := ih (sha256 x)
      _ = sha256 (seqDigest sha256 m x) := hshift m x
      _ = seqDigest sha256 (m + 1) x := rfl

theorem append_ne_of_last_ne (a b c d : String) (hc : c.data.getLast? = some '7')
    (hd : d.data.getLast? = some '8') : a ++ c ≠ b ++ d := by
  intro h
  have h2 : (a ++ c).data.getLast? = (b ++ d).data.getLast? := by rw [h]
  rw [String.data_append, String.data_append, List.getLast?_append, List.getLast?_append,
    hc, hd] at h2
  simp [Option.or] at h2

/-! Settled claims. -/

/-- C1: for every serializable state value and every depth 1 ≤ d ≤ 256,
verifying the record created for that state yields `valid = true` with
both sub-checks true; verification reads the chain depth from the
record itself (it takes no depth argument), so non-default depths
verify without external bookkeeping. -/
theorem integrity_roundtrip (sha256 : String → String) (state : JSValue) (d t1 t2 : Nat)
    (hlo : minDepth ≤ d) (hhi : d ≤ maxDepth) (r : IntegrityRecord)
    (hcreate : createStateIntegrity sha256 state d t1 = .ok r) :
    verifyStateIntegrity sha256 state r t2 = .ok ⟨true, true, true, t2, t1⟩ := by
  have h1 : ¬ d < minDepth := Nat.not_lt.mpr hlo
  have h2 : ¬ maxDepth < d := Nat.not_lt.mpr hhi
  simp only [createStateIntegrity, shaInfinity, if_neg h1, if_neg h2] at hcreate
  injection hcreate with hr
  subst hr
  simp [verifyStateIntegrity, shaInfinity, if_neg h1, if_neg h2]

/-- Witness for C1 at a concrete state, depth 2 and concrete timestamps. -/
theorem integrity_roundtrip_witness :
    verifyStateIntegrity tagHash JSValue.null
      ⟨"hnull", "hhhblackroad-infinity:null:depth:2", 2, 3, "1.0.0", "sha-infinity-v1"⟩ 5 =
      .ok ⟨true, true, true, 5, 3⟩ :=
  integrity_roundtrip tagHash JSValue.null 2 3 5 (by decide) (by decide)
    ⟨"hnull", "hhhblackroad-infinity:null:depth:2", 2, 3, "1.0.0", "sha-infinity-v1"⟩ (by decide)

/-- C2: with salting and depth-binding off, the chained hash at a valid
depth d is exactly d sequential applications of the base digest, the
first applied to the data and each later one to the previous hex
output; at depth 1 it is the plain base digest. -/
theorem chain_equals_seq (sha256 : String → String) (data salt : String) (d : Nat)
    (hlo : minDepth ≤ d) (hhi : d ≤ maxDepth) :
    shaInfinity sha256 data d ⟨false, salt, false⟩ = .ok (seqDigest sha256 d data) ∧
    shaInfinity sha256 data 1 ⟨false, salt, false⟩ = .ok (sha256 data) := by
  constructor
  · have h1 : ¬ d < minDepth := Nat.not_lt.mpr hlo
    have h2 : ¬ maxDepth < d := Nat.not_lt.mpr hhi
    have hp : 1 ≤ d := hlo
    obtain ⟨m, rfl⟩ : ∃ m, d = m + 1 := ⟨d - 1, by omega⟩
    simp only [shaInfinity, if_neg h1, if_neg h2, shaInfCore, Bool.false_eq_true, if_false,
      Nat.add_sub_cancel]
    rw [iterateHash_eq_seqDigest]
    have hshift : ∀ k y, seqDigest sha256 k (sha256 y) = sha256 (seqDigest sha256 k y) := by
      intro k
      induction k with
      | zero => intro y; rfl
      | succ j ihj =>
        intro y
        simp only [seqDigest, ihj]
    rw [hshift]
    rfl
  · rfl

/-- Witness for C2 at depth 3: three sequential digest applications. -/
theorem chain_equals_seq_witness :
    shaInfinity tagHash "hello" 3 ⟨false, "s", false⟩ = .ok (seqDigest tagHash 3 "hello") ∧
    shaInfinity tagHash "hello" 1 ⟨false, "s", false⟩ = .ok (tagHash "hello") :=
  chain_equals_seq tagHash "hello" "s" 3 (by decide) (by decide)

/-- C3: depth 0 and depth 257 are rejected with the source's error
before any digesting (the result does not depend on the digest
primitive), depths 1 and 256 succeed, and in general the call fails
exactly when the depth lies outside `[minDepth, maxDepth]`. -/
theorem depth_bounds (sha256 sha2 : String → String) (data : String) (opts : HashOptions) :
    shaInfinity sha256 data 0 opts = .error "Depth must be at least 1" ∧
    shaInfinity sha256 data 257 opts = .error "Depth cannot exceed 256" ∧
    (shaInfinity sha256 data 1 opts).isOk = true ∧
    (shaInfinity sha256 data 256 opts).isOk = true ∧
    (∀ d : Nat, (shaInfinity sha256 data d opts).isOk = true ↔ minDepth ≤ d ∧ d ≤ maxDepth) ∧
    (∀ d : Nat, d < minDepth ∨ maxDepth < d →
      shaInfinity sha256 data d opts = shaInfinity sha2 data d opts) := by
  refine ⟨rfl, rfl, rfl, rfl, ?_, ?_⟩
  · intro d
    simp only [shaInfinity, minDepth, maxDepth]
    by_cases h1 : d < 1
    · rw [if_pos h1]
      simp only [Except.isOk, Except.toBool, Bool.false_eq_true, false_iff]
      omega
    · rw [if_neg h1]
      by_cases h2 : 256 < d
      · rw [if_pos h2]
        simp only [Except.isOk, Except.toBool, Bool.false_eq_true, false_iff]
        omega
      · rw [if_neg h2]
        simp only [Except.isOk, Except.toBool, true_iff]
        omega
  · intro d hd
    simp only [minDepth, maxDepth] at hd
    simp only [shaInfinity, minDepth, maxDepth]
    split_ifs with h1 h2 <;> first | rfl | (exfalso; omega)

/-- C4: with the default configuration, depths 7 and 8 give different
outputs, because the final binding digest hashes the current digest
together with the decimal depth; stated under injectivity of the base
digest (the idealisation of collision resistance the construction
relies on). -/
theorem depth_binding_distinguishes (sha256 : String → String) (data : String)
    (hinj : Function.Injective sha256) :
    shaInfinity sha256 data 7 defaultOptions ≠ shaInfinity sha256 data 8 defaultOptions := by
  intro h
  simp only [shaInfinity, shaInfCore, defaultOptions, minDepth, maxDepth] at h
  norm_num at h
  have harg := hinj h
  exact append_ne_of_last_ne _ _ _ _ (by decide) (by decide) harg

/-- Witness for C4 with the injective stand-in digest. -/
theorem depth_binding_witness :
    shaInfinity tagHash "hello" 7 defaultOptions ≠ shaInfinity tagHash "hello" 8 defaultOptions :=
  depth_binding_distinguishes tagHash "hello" tagHash_injective

/-- C9: for every valid depth, the suspending variant returns exactly
the digest the synchronous variant returns: the execution mode only
changes how callers await the result, never the computed string. -/
theorem async_matches_sync (sha256 : String → String) (data : String) (depth : Nat)
    (opts : HashOptions) (hlo : minDepth ≤ depth) (hhi : depth ≤ maxDepth) :
    shaInfinityAsync sha256 data depth opts = shaInfinity sha256 data depth opts := by
  have h1 : ¬ depth < minDepth := Nat.not_lt.mpr hlo
  have h2 : ¬ maxDepth < depth := Nat.not_lt.mpr hhi
  simp [shaInfinityAsync, shaInfinity, h1, h2]

/-- Witness for C9 at depth 7 with default options. -/
theorem async_matches_sync_witness :
    shaInfinityAsync tagHash "hello" 7 defaultOptions = shaInfinity tagHash "hello" 7 defaultOptions :=
  async_matches_sync tagHash "hello" 7 defaultOptions (by decide) (by decide)

/-! Merkle helpers. -/

theorem merkleGo_one (sha256 : String → String) (depth : Nat) (x : String) :
    merkleGo sha256 depth [x] = x := by
  rw [merkleGo]

theorem merkleGo_two (sha256 : String → String) (depth : Nat) (a b : String)
    (rest : List String) :
    merkleGo sha256 depth (a :: b :: rest) =
      merkleGo sha256 depth (merklePair sha256 depth (a :: b :: rest)) := by
  rw [merkleGo]

theorem merklePair_append_last (sha256 : String → String) (depth : Nat) :
    ∀ (l : List String) (a : String), l.length % 2 = 0 →
      merklePair sha256 depth (l ++ [a]) =
        merklePair sha256 depth l ++ [shaInfCore sha256 (a ++ a) depth noDepthOptions]
  | [], a, _ => by simp [merklePair]
  | [_], _, hpar => by simp at hpar
  | x :: y :: rest, a, hpar => by
    simp only [List.cons_append, merklePair, List.append_eq]
    rw [merklePair_append_last sha256 depth rest a
      (by simp only [List.length_cons] at hpar; omega)]

theorem shaInfCore_ne_empty (sha256 : String → String) (hdig : ∀ s, sha256 s ≠ "")
    (data : String) (depth : Nat) (opts : HashOptions) :
    shaInfCore sha256 data depth opts ≠ "" := by
  have himg : ∀ (n : Nat) (x : String), ∃ y, iterateHash sha256 n (sha256 x) = sha256 y := by
    intro n
    induction n with
    | zero => intro x; exact ⟨x, rfl⟩
    | succ m ih => intro x; exact ih (sha256 x)
  simp only [shaInfCore]
  by_cases hD : opts.includeDepthInHash
  · simp only [hD, if_true]
    exact hdig _
  · simp only [hD, Bool.false_eq_true, if_false]
    by_cases hS : opts.useSalt
    · simp only [hS, if_true]
      obtain ⟨y, hy⟩ := himg (depth - 1) (opts.salt ++ ":" ++ data)
      rw [hy]
      exact hdig y
    · simp only [hS, Bool.false_eq_true, if_false]
      obtain ⟨y, hy⟩ := himg (depth - 1) data
      rw [hy]
      exact hdig y

/-- C5 (amended): empty input yields the sentinel `chainHash("empty")`,
a single element is returned unchanged, at every pairing level an
odd-length list duplicates its final element as its own pair partner,
and `merkleRoot([h1,h2,h3])` pairs `(h1,h2)` and `(h3,h3)` combined via
the depth-unbound chained hash — provided `h2` is nonempty (the code's
falsy check replaces an empty right partner by the left element) and
the digest primitive never returns the empty string. -/
theorem merkle_structure (sha256 : String → String) (h1 h2 h3 : String) (depth : Nat)
    (hlo : minDepth ≤ depth) (hhi : depth ≤ maxDepth) (hne : h2 ≠ "")
    (hdig : ∀ s, sha256 s ≠ "") :
    infinityMerkleRoot sha256 [] depth = shaInfinity sha256 "empty" depth defaultOptions ∧
    infinityMerkleRoot sha256 [h1] depth = .ok h1 ∧
    (∀ (l : List String) (a : String), l.length % 2 = 0 →
      merklePair sha256 depth (l ++ [a]) =
        merklePair sha256 depth l ++ [shaInfCore sha256 (a ++ a) depth noDepthOptions]) ∧
    infinityMerkleRoot sha256 [h1, h2, h3] depth =
      .ok (shaInfCore sha256
        (shaInfCore sha256 (h1 ++ h2) depth noDepthOptions ++
          shaInfCore sha256 (h3 ++ h3) depth noDepthOptions) depth noDepthOptions) := by
  have hd1 : ¬ depth < minDepth := Nat.not_lt.mpr hlo
  have hd2 : ¬ maxDepth < depth := Nat.not_lt.mpr hhi
  refine ⟨rfl, rfl, merklePair_append_last sha256 depth, ?_⟩
  simp only [infinityMerkleRoot, if_neg hd1, if_neg hd2]
  rw [merkleGo_two]
  have hp1 : merklePair sha256 depth [h1, h2, h3] =
      [shaInfCore sha256 (h1 ++ h2) depth noDepthOptions,
        shaInfCore sha256 (h3 ++ h3) depth noDepthOptions] := by
    simp [merklePair, if_neg hne]
  rw [hp1, merkleGo_two]
  have hp2 : merklePair sha256 depth
      [shaInfCore sha256 (h1 ++ h2) depth noDepthOptions,
        shaInfCore sha256 (h3 ++ h3) depth noDepthOptions] =
      [shaInfCore sha256
        (shaInfCore sha256 (h1 ++ h2) depth noDepthOptions ++
          shaInfCore sha256 (h3 ++ h3) depth noDepthOptions) depth noDepthOptions] := by
    simp [merklePair, if_neg (shaInfCore_ne_empty sha256 hdig (h3 ++ h3) depth noDepthOptions)]
  rw [hp2, merkleGo_one]

/-- Witness for the amended C5 with the injective stand-in digest. -/
theorem merkle_structure_witness :
    infinityMerkleRoot tagHash [] 1 = shaInfinity tagHash "empty" 1 defaultOptions ∧
    infinityMerkleRoot tagHash ["a"] 1 = .ok "a" ∧
    (∀ (l : List String) (a : String), l.length % 2 = 0 →
      merklePair tagHash 1 (l ++ [a]) =
        merklePair tagHash 1 l ++ [shaInfCore tagHash (a ++ a) 1 noDepthOptions]) ∧
    infinityMerkleRoot tagHash ["a", "b", "c"] 1 =
      .ok (shaInfCore tagHash
        (shaInfCore tagHash ("a" ++ "b") 1 noDepthOptions ++
          shaInfCore tagHash ("c" ++ "c") 1 noDepthOptions) 1 noDepthOptions) :=
  merkle_structure tagHash "a" "b" "c" 1 (by decide) (by decide) (by decide) tagHash_ne_empty

/-- C5 counterexample: with an empty string as the second element the
code pairs `(h1, h1)`, not `(h1, h2)` as the claim's universal reading
asserts, so the root differs from the claimed combination. -/
theorem merkle_pairing_counterexample :
    infinityMerkleRoot tagHash ["a", "", "b"] 1 ≠
      .ok (shaInfCore tagHash
        (shaInfCore tagHash ("a" ++ "") 1 noDepthOptions ++
          shaInfCore tagHash ("b" ++ "b") 1 noDepthOptions) 1 noDepthOptions) := by
  simp only [infinityMerkleRoot, merkleGo, merklePair, minDepth, maxDepth]
  decide

/-- C10: the empty string in the right slot of a pair is falsy in
`hashes[i + 1] || left`, so it is replaced by the left element and
`merkleRoot([h, ""])` equals `merkleRoot([h, h])` at every valid depth. -/
theorem merkle_empty_right_partner (sha256 : String → String) (h : String) (depth : Nat)
    (_hlo : minDepth ≤ depth) (_hhi : depth ≤ maxDepth) :
    infinityMerkleRoot sha256 [h, ""] depth = infinityMerkleRoot sha256 [h, h] depth := by
  have hpair : merklePair sha256 depth [h, ""] = merklePair sha256 depth [h, h] := by
    simp [merklePair]
  simp only [infinityMerkleRoot]
  split_ifs with h1 h2
  · rfl
  · rfl
  · rw [merkleGo_two, merkleGo_two, hpair]

/-- Witness for C10 at depth 7. -/
theorem merkle_empty_right_partner_witness :
    infinityMerkleRoot tagHash ["a", ""] 7 = infinityMerkleRoot tagHash ["a", "a"] 7 :=
  merkle_empty_right_partner tagHash "a" 7 (by decide) (by decide)

/-! Proof-of-work helpers. -/

theorem replicate_zero_prefix_le_leadingZeros :
    ∀ (n : Nat) (l : List Char), (List.replicate n '0').isPrefixOf l = true →
      n ≤ (l.takeWhile (fun c => c == '0')).length
  | 0, _, _ => Nat.zero_le _
  | n + 1, [], h => by simp [List.isPrefixOf] at h
  | n + 1, c :: l, h => by
    simp only [List.replicate, List.isPrefixOf, Bool.and_eq_true, beq_iff_eq] at h
    obtain ⟨hc, hrest⟩ := h
    subst hc
    simp only [List.takeWhile, beq_self_eq_true, List.length_cons]
    exact Nat.succ_le_succ (replicate_zero_prefix_le_leadingZeros n l hrest)

theorem powGo_spec (sha256 : String → String) (data zeros : String) (depth : Nat) :
    ∀ (fuel nonce : Nat), powBudget - nonce ≤ fuel → nonce < powBudget →
      ∀ r, powGo sha256 data zeros depth nonce = .ok r →
        nonce + 1 ≤ r.attempts ∧ r.attempts ≤ powBudget ∧
        r.verified = jsStartsWith r.hash zeros ∧
        (r.verified = false → r.attempts = powBudget) := by
  intro fuel
  induction fuel with
  | zero =>
    intro nonce hf hn r hr
    omega
  | succ m ih =>
    intro nonce hf hn r hr
    rw [powGo] at hr
    split at hr
    · exact absurd hr (by simp)
    · rename_i h heq
      split_ifs at hr with hcond
      · have hrec := ih (nonce + 1) (by omega) (by omega) r hr
        exact ⟨by omega, hrec.2.1, hrec.2.2.1, hrec.2.2.2⟩
      · injection hr with hr'
        subst hr'
        refine ⟨Nat.le_refl _, by show nonce + 1 ≤ powBudget; omega, rfl, ?_⟩
        intro hv
        have hv' : jsStartsWith h zeros = false := hv
        have hstop : ¬ nonce + 1 < powBudget := fun hlt => hcond ⟨hv', hlt⟩
        show nonce + 1 = powBudget
        omega

/-- C6 (amended): every successful proof-of-work result has
`attempts ≥ 1` and at most the fixed budget; a verified result's hash
begins with at least `difficulty` leading zero characters (the search
only tests the prefix, so more zeros may follow); an unverified result
has consumed exactly the 10,000,000-attempt budget — and exhaustion is
returned as an ordinary result, not an error. -/
theorem pow_result_bounds (sha256 : String → String) (data : String) (difficulty depth : Nat)
    (r : ProofOfWorkResult) (hr : proofOfWork sha256 data difficulty depth = .ok r) :
    1 ≤ r.attempts ∧ r.attempts ≤ powBudget ∧
    (r.verified = true → difficulty ≤ leadingZeros r.hash) ∧
    (r.verified = false → r.attempts = powBudget) := by
  have hb : (0 : Nat) < powBudget := by norm_num [powBudget]
  have hs := powGo_spec sha256 data (String.mk (List.replicate difficulty '0')) depth
    powBudget 0 (by omega) hb r hr
  refine ⟨hs.1, hs.2.1, ?_, hs.2.2.2⟩
  intro hv
  have hpre : jsStartsWith r.hash (String.mk (List.replicate difficulty '0')) = true := by
    rw [← hs.2.2.1]
    exact hv
  exact replicate_zero_prefix_le_leadingZeros difficulty r.hash.data hpre

/-- Witness for the amended C6: a one-attempt verified run. -/
theorem pow_result_bounds_witness :
    1 ≤ (⟨"0", 0, 1, true⟩ : ProofOfWorkResult).attempts ∧
    (⟨"0", 0, 1, true⟩ : ProofOfWorkResult).attempts ≤ powBudget ∧
    ((⟨"0", 0, 1, true⟩ : ProofOfWorkResult).verified = true →
      1 ≤ leadingZeros (⟨"0", 0, 1, true⟩ : ProofOfWorkResult).hash) ∧
    ((⟨"0", 0, 1, true⟩ : ProofOfWorkResult).verified = false →
      (⟨"0", 0, 1, true⟩ : ProofOfWorkResult).attempts = powBudget) :=
  pow_result_bounds (fun _ => "0") "x" 1 1 ⟨"0", 0, 1, true⟩ (by
    simp [proofOfWork, powGo, shaInfinity, shaInfCore, iterateHash, noDepthOptions,
      defaultSalt, jsStartsWith, powBudget, minDepth, maxDepth])

/-- C6 counterexample: the claim asks for exactly `difficulty` leading
zeros, but the search only tests the prefix: a digest "00" satisfies
difficulty 1 and is returned verified although it has two leading
zeros. -/
theorem pow_exact_zeros_counterexample :
    proofOfWork (fun _ => "00") "x" 1 1 = .ok ⟨"00", 0, 1, true⟩ ∧
    leadingZeros "00" ≠ 1 := by
  constructor
  · simp [proofOfWork, powGo, shaInfinity, shaInfCore, iterateHash, noDepthOptions,
      defaultSalt, jsStartsWith, powBudget, minDepth, maxDepth]
  · decide

/-! Canonical serializer claims. -/

theorem stringifyFields_eq_map :
    ∀ l, stringifyFields l = l.map (fun p => (p.1, stableStringify p.2))
  | [] => rfl
  | (k, v) :: fs => by
    simp [stringifyFields, stringifyFields_eq_map fs]

theorem sorted_key_nodup_perm_eq : ∀ (l1 l2 : List (String × String)),
    l1.Perm l2 → (l1.map Prod.fst).Nodup →
    l1.Sorted keyRel → l2.Sorted keyRel → l1 = l2
  | [], _, hperm, _, _, _ => (hperm.symm.eq_nil).symm
  | _ :: _, [], hperm, _, _, _ => absurd hperm.eq_nil (by simp)
  | a :: t, b :: t2, hperm, hnd, hs1, hs2 => by
    have hab : a = b := by
      have ha2 : a ∈ b :: t2 := hperm.mem_iff.mp (List.mem_cons_self a t)
      have hb1 : b ∈ a :: t := hperm.mem_iff.mpr (List.mem_cons_self b t2)
      rcases List.mem_cons.mp ha2 with h | h
      · exact h
      rcases List.mem_cons.mp hb1 with h' | h'
      · exact h'.symm
      have hba : keyRel b a := (List.sorted_cons.mp hs2).1 a h
      have hab2 : keyRel a b := (List.sorted_cons.mp hs1).1 b h'
      have hkey : a.1 = b.1 := String.ext (charListLe_antisymm hab2 hba)
      exfalso
      have hmem : a.1 ∈ t.map Prod.fst := hkey ▸ List.mem_map_of_mem Prod.fst h'
      exact (List.nodup_cons.mp hnd).1 hmem
    subst hab
    have ht := sorted_key_nodup_perm_eq t t2 hperm.cons_inv
      (List.nodup_cons.mp hnd).2 (List.sorted_cons.mp hs1).2 (List.sorted_cons.mp hs2).2
    rw [ht]

/-- C7: two mappings with the same fields in different insertion order
serialize to the same bytes (keys are emitted in sorted order), the
concrete pair from the specification agrees, and the two orderings of
a sequence serialize differently (element order is significant). -/
theorem canonical_key_order (f1 f2 : List (String × JSValue))
    (hperm : f1.Perm f2) (hnd : (f1.map Prod.fst).Nodup) :
    stableStringify (.obj f1) = stableStringify (.obj f2) ∧
    stableStringify (.obj [("a", .num 1), ("b", .num 2)]) =
      stableStringify (.obj [("b", .num 2), ("a", .num 1)]) ∧
    stableStringify (.arr [.num 1, .num 2]) ≠ stableStringify (.arr [.num 2, .num 1]) := by
  refine ⟨?_, by decide, by decide⟩
  have hpermS : (stringifyFields f1).Perm (stringifyFields f2) := by
    rw [stringifyFields_eq_map, stringifyFields_eq_map]
    exact hperm.map _
  have hndS : ((stringifyFields f1).map Prod.fst).Nodup := by
    rw [stringifyFields_eq_map, List.map_map]
    exact hnd
  have hq : sortByKey (stringifyFields f1) = sortByKey (stringifyFields f2) := by
    apply sorted_key_nodup_perm_eq
    · exact (List.perm_insertionSort keyRel _).trans
        (hpermS.trans (List.perm_insertionSort keyRel _).symm)
    · have hp := (List.perm_insertionSort keyRel (stringifyFields f1)).map Prod.fst
      exact hp.nodup_iff.mpr hndS
    · exact List.sorted_insertionSort keyRel (stringifyFields f1)
    · exact List.sorted_insertionSort keyRel (stringifyFields f2)
  simp only [stableStringify]
  rw [hq]

/-- Witness for C7 at a concrete two-field mapping. -/
theorem canonical_key_order_witness :
    stableStringify (.obj [("x", .null), ("y", .bool true)]) =
      stableStringify (.obj [("y", .bool true), ("x", .null)]) ∧
    stableStringify (.obj [("a", .num 1), ("b", .num 2)]) =
      stableStringify (.obj [("b", .num 2), ("a", .num 1)]) ∧
    stableStringify (.arr [.num 1, .num 2]) ≠ stableStringify (.arr [.num 2, .num 1]) :=
  canonical_key_order [("x", .null), ("y", .bool true)] [("y", .bool true), ("x", .null)]
    (List.Perm.swap ("y", JSValue.bool true) ("x", JSValue.null) []) (by decide)

/-! Algorithm-field handling. -/

/-- C8 (amended): verification never inspects the `algorithm` (or
`version`) field — replacing it with an arbitrary, unrecognized value
leaves the verification result bit-for-bit unchanged, so unrecognized
records are silently verified as if current. -/
theorem verify_ignores_algorithm (sha256 : String → String) (state : JSValue)
    (r : IntegrityRecord) (now : Nat) (alg : String) :
    verifyStateIntegrity sha256 state { r with algorithm := alg } now =
      verifyStateIntegrity sha256 state r now := by
  cases r
  rfl

/-- C8 counterexample: a record carrying an unrecognized algorithm
identifier but matching digests is verified `valid = true`, with no
rejection and no flag. -/
theorem verify_accepts_unknown_algorithm :
    (⟨"hnull", "hhhblackroad-infinity:null:depth:2", 2, 3, "1.0.0", "legacy-v0"⟩ :
      IntegrityRecord).algorithm ≠ "sha-infinity-v1" ∧
    verifyStateIntegrity tagHash JSValue.null
      ⟨"hnull", "hhhblackroad-infinity:null:depth:2", 2, 3, "1.0.0", "legacy-v0"⟩ 9 =
      .ok ⟨true, true, true, 9, 3⟩ := by
  constructor
  · decide
  · decide

end BlackRoad
